import Mathlib

/-!
Verification of the bounded SPSC ring buffer from src/src/main.rs.

The structure RingBuffer and the operations new, push and pop below are a
shallow embedding of the Rust code: the Vec of i32 payloads becomes a
List Int, the two atomic usize cursors and the two cached cursors become
Nat fields, and sequential execution collapses each atomic load/store to a
plain field read/write.  A Rust panic (out-of-bounds Vec indexing) is
modelled by returning none; normal returns are some.  pop takes the
current value of the out-parameter and returns its new value, so that the
frame property of a failed pop is expressible.
-/

namespace RingBufferSpec

structure RingBuffer where
  data_ : List Int
  read_idx_ : Nat
  read_idx_cached_ : Nat
  write_idx_ : Nat
  write_idx_cached_ : Nat
deriving DecidableEq

/-- Embedding of RingBuffer::new: capacity zero-valued slots, all cursors 0. -/
def RingBuffer.new (capacity : Nat) : RingBuffer :=
  { data_ := List.replicate capacity 0
    read_idx_ := 0
    read_idx_cached_ := 0
    write_idx_ := 0
    write_idx_cached_ := 0 }

/-- Embedding of RingBuffer::push.  The wrap test is the source's equality
test against data_.len(), not a modulus.  The cached read index is
refreshed exactly when the wrapped successor hits the cached value; the
out-of-bounds write data_[write_idx] = val is modelled as none. -/
def RingBuffer.push (b : RingBuffer) (val : Int) : Option (RingBuffer × Bool) :=
  let write_idx := b.write_idx_
  let next_write_idx := if write_idx + 1 = b.data_.length then 0 else write_idx + 1
  if next_write_idx = b.read_idx_cached_ then
    let read_idx_cached := b.read_idx_
    if next_write_idx = read_idx_cached then
      some ({ b with read_idx_cached_ := read_idx_cached }, false)
    else if _h : write_idx < b.data_.length then
      some ({ b with data_ := b.data_.set write_idx val
                     write_idx_ := next_write_idx
                     read_idx_cached_ := read_idx_cached }, true)
    else none
  else if _h : write_idx < b.data_.length then
    some ({ b with data_ := b.data_.set write_idx val
                   write_idx_ := next_write_idx }, true)
  else none

/-- Embedding of RingBuffer::pop.  val is the value held by the Rust
out-parameter before the call; the returned Int is its value after. -/
def RingBuffer.pop (b : RingBuffer) (val : Int) : Option (RingBuffer × Int × Bool) :=
  let read_idx := b.read_idx_
  if read_idx = b.write_idx_cached_ then
    let write_idx_cached := b.write_idx_
    if read_idx = write_idx_cached then
      some ({ b with write_idx_cached_ := write_idx_cached }, val, false)
    else if h : read_idx < b.data_.length then
      some ({ b with write_idx_cached_ := write_idx_cached
                     read_idx_ := if read_idx + 1 = b.data_.length then 0 else read_idx + 1 },
        b.data_.get ⟨read_idx, h⟩, true)
    else none
  else if h : read_idx < b.data_.length then
    some ({ b with read_idx_ := if read_idx + 1 = b.data_.length then 0 else read_idx + 1 },
      b.data_.get ⟨read_idx, h⟩, true)
  else none

/-- Circular successor arithmetic: index i advanced by k slots in a ring of
size C, written without a modulus (valid for i, k < C). -/
def wrapAdd (C i k : Nat) : Nat :=
  if i + k < C then i + k else i + k - C

/-- Forward circular distance from a to b in a ring of size C. -/
def dist (C a b : Nat) : Nat :=
  if a ≤ b then b - a else C - a + b

/-- The abstract queue a buffer state represents: the slots from read_idx_
(inclusive) to write_idx_ (exclusive), in circular order. -/
def RingBuffer.contents (b : RingBuffer) : List Int :=
  (List.range (dist b.data_.length b.read_idx_ b.write_idx_)).map
    (fun k => b.data_.getD (wrapAdd b.data_.length b.read_idx_ k) 0)

/-- The state invariant of sequential executions: all four cursors are in
range, the producer-cached read index never claims more free space than
really exists, and the consumer-cached write index never claims more
queued data than really exists. -/
structure RingBuffer.Inv (b : RingBuffer) : Prop where
  read_lt : b.read_idx_ < b.data_.length
  write_lt : b.write_idx_ < b.data_.length
  rc_lt : b.read_idx_cached_ < b.data_.length
  wc_lt : b.write_idx_cached_ < b.data_.length
  rc_le : dist b.data_.length b.read_idx_ b.write_idx_ ≤
    dist b.data_.length b.read_idx_cached_ b.write_idx_
  wc_le : dist b.data_.length b.read_idx_ b.write_idx_cached_ ≤
    dist b.data_.length b.read_idx_ b.write_idx_

/-- States reachable from a freshly constructed buffer of capacity C by
sequential push and pop calls that do not panic. -/
inductive Reachable (C : Nat) : RingBuffer → Prop where
  | init : Reachable C (RingBuffer.new C)
  | push (b b' : RingBuffer) (v : Int) (r : Bool) :
      Reachable C b → b.push v = some (b', r) → Reachable C b'
  | pop (b b' : RingBuffer) (x out : Int) (r : Bool) :
      Reachable C b → b.pop x = some (b', out, r) → Reachable C b'

/-- One sequential call issued to the buffer. -/
inductive Op where
  | push (v : Int)
  | pop
deriving DecidableEq

/-- The observable result of one call: the boolean returned, and for pop
also the value left in the out-parameter. -/
inductive Res where
  | pushed (ok : Bool)
  | popped (ok : Bool) (out : Int)
deriving DecidableEq

/-- Run a list of calls sequentially, recording each observable result;
none if any call panics.  Failed pops use a scratch out-parameter of 0. -/
def run : RingBuffer → List Op → Option (RingBuffer × List Res)
  | b, [] => some (b, [])
  | b, Op.push v :: rest =>
    (b.push v).bind fun p =>
      (run p.1 rest).map fun q => (q.1, Res.pushed p.2 :: q.2)
  | b, Op.pop :: rest =>
    (b.pop 0).bind fun p =>
      (run p.1 rest).map fun q => (q.1, Res.popped p.2.2 p.2.1 :: q.2)

/-- The values whose pushes succeeded, in issue order. -/
def pushedOK : List Op → List Res → List Int
  | Op.push v :: ops, Res.pushed true :: rs => v :: pushedOK ops rs
  | _ :: ops, _ :: rs => pushedOK ops rs
  | _, _ => []

/-- The values returned by successful pops, in issue order. -/
def poppedOK : List Res → List Int
  | [] => []
  | Res.popped true out :: rs => out :: poppedOK rs
  | _ :: rs => poppedOK rs

/-- One fill-and-drain cycle: push every value of vs, then pop vs.length
times. -/
def cycleOps (vs : List Int) : List Op :=
  vs.map Op.push ++ List.replicate vs.length Op.pop

/-- The results a fill-and-drain cycle is expected to record: every push
succeeds, then every pop succeeds and yields the pushed values in order. -/
def cycleRes (vs : List Int) : List Res :=
  vs.map (fun _ => Res.pushed true) ++ vs.map (fun v => Res.popped true v)

/-! Arithmetic facts about wrapAdd and dist. -/

theorem wrapAdd_lt (C i k : Nat) (hi : i < C) (hk : k ≤ C) : wrapAdd C i k < C := by
  unfold wrapAdd; split <;> omega

theorem dist_lt (C a b : Nat) (ha : a < C) (hb : b < C) : dist C a b < C := by
  unfold dist; split <;> omega

theorem dist_eq_zero_iff (C a b : Nat) (ha : a < C) (_hb : b < C) :
    dist C a b = 0 ↔ a = b := by
  unfold dist; split <;> omega

theorem wrapAdd_eq_iff (C i j k : Nat) (hi : i < C) (hj : j < C) (hk : k < C) :
    wrapAdd C i k = j ↔ k = dist C i j := by
  unfold wrapAdd dist; split_ifs <;> omega

theorem next_eq_wrapAdd (C w : Nat) (hw : w < C) :
    (if w + 1 = C then 0 else w + 1) = wrapAdd C w 1 := by
  unfold wrapAdd; split_ifs <;> omega

theorem wrapAdd_one_mod (C w : Nat) (hw : w < C) : wrapAdd C w 1 = (w + 1) % C := by
  unfold wrapAdd
  by_cases h1 : w + 1 < C
  · rw [if_pos h1, Nat.mod_eq_of_lt h1]
  · have h2 : w + 1 = C := by omega
    rw [if_neg h1, h2, Nat.sub_self, Nat.mod_self]

theorem dist_next (C a b : Nat) (ha : a < C) (hb : b < C) (h : dist C a b < C - 1) :
    dist C a (wrapAdd C b 1) = dist C a b + 1 := by
  simp only [dist, wrapAdd] at h ⊢; split_ifs at h ⊢ <;> omega

theorem full_iff_next_eq (C r w : Nat) (hr : r < C) (hw : w < C) :
    wrapAdd C w 1 = r ↔ dist C r w = C - 1 := by
  unfold wrapAdd dist; split_ifs <;> omega

theorem dist_succ_left (C a b : Nat) (ha : a < C) (hb : b < C) (h : a ≠ b) :
    dist C (wrapAdd C a 1) b = dist C a b - 1 := by
  unfold dist wrapAdd; split_ifs <;> omega

theorem wrapAdd_zero (C i : Nat) (hi : i < C) : wrapAdd C i 0 = i := by
  unfold wrapAdd; split <;> omega

theorem wrapAdd_succ (C i k : Nat) (hi : i < C) (hk : k + 1 < C) :
    wrapAdd C i (k + 1) = wrapAdd C (wrapAdd C i 1) k := by
  unfold wrapAdd; split_ifs <;> omega

/-! List access facts. -/

theorem getD_set_self (l : List Int) (i : Nat) (v d : Int) (h : i < l.length) :
    (l.set i v).getD i d = v := by
  simp [List.getD_eq_getElem?_getD, List.getElem?_set_eq_of_lt, h]

theorem getD_set_ne (l : List Int) (i j : Nat) (v d : Int) (h : i ≠ j) :
    (l.set i v).getD j d = l.getD j d := by
  simp [List.getD_eq_getElem?_getD, List.getElem?_set_ne, h]

theorem getD_eq_get (l : List Int) (i : Nat) (d : Int) (h : i < l.length) :
    l.getD i d = l.get ⟨i, h⟩ := by
  simp [List.getD_eq_getElem?_getD, List.getElem?_eq_getElem, h]

/-! Facts about the contents abstraction. -/

theorem contents_length (b : RingBuffer) :
    b.contents.length = dist b.data_.length b.read_idx_ b.write_idx_ := by
  simp [RingBuffer.contents]

theorem contents_eq_nil_iff (b : RingBuffer)
    (hr : b.read_idx_ < b.data_.length) (hw : b.write_idx_ < b.data_.length) :
    b.contents = [] ↔ b.read_idx_ = b.write_idx_ := by
  rw [← List.length_eq_zero, contents_length, dist_eq_zero_iff _ _ _ hr hw]

theorem contents_new (C : Nat) : (RingBuffer.new C).contents = [] := by
  simp [RingBuffer.contents, RingBuffer.new, dist]

/-- Writing v at write_idx_ and advancing write_idx_ by one slot appends v
to the abstract queue, provided the buffer is not full. -/
theorem contents_write (b b' : RingBuffer) (v : Int)
    (hd : b'.data_ = b.data_.set b.write_idx_ v)
    (hr2 : b'.read_idx_ = b.read_idx_)
    (hw2 : b'.write_idx_ = wrapAdd b.data_.length b.write_idx_ 1)
    (hr : b.read_idx_ < b.data_.length)
    (hw : b.write_idx_ < b.data_.length)
    (hnf : dist b.data_.length b.read_idx_ b.write_idx_ < b.data_.length - 1) :
    b'.contents = b.contents ++ [v] := by
  have hlen : b'.data_.length = b.data_.length := by rw [hd]; simp
  have hd1 : dist b.data_.length b.read_idx_ (wrapAdd b.data_.length b.write_idx_ 1) =
      dist b.data_.length b.read_idx_ b.write_idx_ + 1 :=
    dist_next _ _ _ hr hw hnf
  unfold RingBuffer.contents
  rw [hlen, hr2, hw2, hd, hd1, List.range_succ, List.map_append]
  have hmain : ∀ k ∈ List.range (dist b.data_.length b.read_idx_ b.write_idx_),
      (b.data_.set b.write_idx_ v).getD (wrapAdd b.data_.length b.read_idx_ k) 0 =
      b.data_.getD (wrapAdd b.data_.length b.read_idx_ k) 0 := by
    intro k hk
    rw [List.mem_range] at hk
    apply getD_set_ne
    intro hcontra
    have hk2 : k < b.data_.length := by
      have := dist_lt b.data_.length b.read_idx_ b.write_idx_ hr hw
      omega
    have := (wrapAdd_eq_iff b.data_.length b.read_idx_ b.write_idx_ k hr hw hk2).mp
      hcontra.symm
    omega
  have hlast : (b.data_.set b.write_idx_ v).getD
      (wrapAdd b.data_.length b.read_idx_ (dist b.data_.length b.read_idx_ b.write_idx_)) 0
      = v := by
    have hdl : dist b.data_.length b.read_idx_ b.write_idx_ < b.data_.length :=
      dist_lt _ _ _ hr hw
    rw [(wrapAdd_eq_iff b.data_.length b.read_idx_ b.write_idx_ _ hr hw hdl).mpr rfl]
    exact getD_set_self _ _ _ _ hw
  rw [List.map_congr_left hmain]
  simp only [List.map_cons, List.map_nil]
  rw [hlast]

/-- Reading the slot at read_idx_ and advancing read_idx_ by one slot
removes the head of the abstract queue, provided the buffer is not empty. -/
theorem contents_read (b b' : RingBuffer)
    (hd : b'.data_ = b.data_)
    (hr2 : b'.read_idx_ = wrapAdd b.data_.length b.read_idx_ 1)
    (hw2 : b'.write_idx_ = b.write_idx_)
    (hr : b.read_idx_ < b.data_.length)
    (hw : b.write_idx_ < b.data_.length)
    (hne : b.read_idx_ ≠ b.write_idx_) :
    b.contents = b.data_.getD b.read_idx_ 0 :: b'.contents := by
  have hlen : b'.data_.length = b.data_.length := by rw [hd]
  have hpos : 0 < dist b.data_.length b.read_idx_ b.write_idx_ := by
    rcases Nat.eq_zero_or_pos (dist b.data_.length b.read_idx_ b.write_idx_) with h0 | h0
    · exact absurd ((dist_eq_zero_iff _ _ _ hr hw).mp h0) hne
    · exact h0
  have hd1 : dist b.data_.length (wrapAdd b.data_.length b.read_idx_ 1) b.write_idx_ =
      dist b.data_.length b.read_idx_ b.write_idx_ - 1 :=
    dist_succ_left _ _ _ hr hw hne
  obtain ⟨d, hdd⟩ : ∃ d, dist b.data_.length b.read_idx_ b.write_idx_ = d + 1 :=
    ⟨dist b.data_.length b.read_idx_ b.write_idx_ - 1, by omega⟩
  have hdC : d + 1 < b.data_.length := by
    have := dist_lt b.data_.length b.read_idx_ b.write_idx_ hr hw
    omega
  unfold RingBuffer.contents
  rw [hlen, hr2, hw2, hd, hd1, hdd, Nat.add_sub_cancel, List.range_succ_eq_map,
    List.map_cons, List.map_map, wrapAdd_zero _ _ hr]
  have hmain : ∀ k ∈ List.range d,
      ((fun k => b.data_.getD (wrapAdd b.data_.length b.read_idx_ k) 0) ∘ Nat.succ) k =
      b.data_.getD (wrapAdd b.data_.length (wrapAdd b.data_.length b.read_idx_ 1) k) 0 := by
    intro k hk
    rw [List.mem_range] at hk
    simp only [Function.comp]
    rw [Nat.succ_eq_add_one, wrapAdd_succ _ _ _ hr (by omega)]
  rw [List.map_congr_left hmain]

/-- Full functional specification of one push call from an invariant
state: it never panics, preserves the invariant and the capacity, returns
false exactly when the buffer is full (and then changes nothing), and on
success appends the pushed value to the abstract queue. -/
theorem push_spec (b : RingBuffer) (v : Int) (hinv : b.Inv) :
    ∃ b' r, b.push v = some (b', r) ∧ b'.Inv ∧
      b'.data_.length = b.data_.length ∧
      (r = false ↔ dist b.data_.length b.read_idx_ b.write_idx_ = b.data_.length - 1) ∧
      (r = false → b' = b) ∧
      (r = true → b'.contents = b.contents ++ [v]) := by
  obtain ⟨hr, hw, hrc, hwc, hrcle, hwcle⟩ := hinv
  have hC : 0 < b.data_.length := by omega
  have hnext := next_eq_wrapAdd b.data_.length b.write_idx_ hw
  have hn_lt : wrapAdd b.data_.length b.write_idx_ 1 < b.data_.length :=
    wrapAdd_lt _ _ _ hw (by omega)
  have hdl : dist b.data_.length b.read_idx_ b.write_idx_ < b.data_.length :=
    dist_lt _ _ _ hr hw
  simp only [RingBuffer.push]
  rw [hnext]
  by_cases h1 : wrapAdd b.data_.length b.write_idx_ 1 = b.read_idx_cached_
  · rw [if_pos h1]
    by_cases h2 : wrapAdd b.data_.length b.write_idx_ 1 = b.read_idx_
    · rw [if_pos h2]
      have hfull : dist b.data_.length b.read_idx_ b.write_idx_ = b.data_.length - 1 :=
        (full_iff_next_eq _ _ _ hr hw).mp h2
      have hbeq : b.read_idx_cached_ = b.read_idx_ := by rw [← h1, ← h2]
      refine ⟨_, false, rfl, ?_, by simp, by simp [hfull], ?_, by simp⟩
      · exact ⟨hr, hw, by simpa using hr, hwc, by simpa using Nat.le_refl _,
          by simpa using hwcle⟩
      · intro hfalse
        cases b
        simp_all
    · rw [if_neg h2, dif_pos hw]
      have hnf : dist b.data_.length b.read_idx_ b.write_idx_ < b.data_.length - 1 := by
        have := (full_iff_next_eq _ _ _ hr hw).not.mp h2
        omega
      have hdn : dist b.data_.length b.read_idx_ (wrapAdd b.data_.length b.write_idx_ 1) =
          dist b.data_.length b.read_idx_ b.write_idx_ + 1 := dist_next _ _ _ hr hw hnf
      refine ⟨_, true, rfl, ?_, by simp, by simp; omega, by simp, ?_⟩
      · refine ⟨by simpa using hr, by simpa using hn_lt, by simpa using hr,
          by simpa using hwc, ?_, ?_⟩
        · simp only [List.length_set]
          rw [hdn]
        · simp only [List.length_set]
          rw [hdn]
          omega
      · intro _
        exact contents_write b _ v (by simp) (by simp) (by simp) hr hw hnf
  · rw [if_neg h1, dif_pos hw]
    have hnfc : dist b.data_.length b.read_idx_cached_ b.write_idx_ ≠ b.data_.length - 1 :=
      (full_iff_next_eq _ _ _ hrc hw).not.mp h1
    have hdlc : dist b.data_.length b.read_idx_cached_ b.write_idx_ < b.data_.length :=
      dist_lt _ _ _ hrc hw
    have hnf : dist b.data_.length b.read_idx_ b.write_idx_ < b.data_.length - 1 := by
      omega
    have hdn : dist b.data_.length b.read_idx_ (wrapAdd b.data_.length b.write_idx_ 1) =
        dist b.data_.length b.read_idx_ b.write_idx_ + 1 := dist_next _ _ _ hr hw hnf
    have hdnc : dist b.data_.length b.read_idx_cached_ (wrapAdd b.data_.length b.write_idx_ 1) =
        dist b.data_.length b.read_idx_cached_ b.write_idx_ + 1 :=
      dist_next _ _ _ hrc hw (by omega)
    refine ⟨_, true, rfl, ?_, by simp, by simp; omega, by simp, ?_⟩
    · refine ⟨by simpa using hr, by simpa using hn_lt, by simpa using hrc,
        by simpa using hwc, ?_, ?_⟩
      · simp only [List.length_set]
        rw [hdn, hdnc]
        omega
      · simp only [List.length_set]
        rw [hdn]
        omega
    · intro _
      exact contents_write b _ v (by simp) (by simp) (by simp) hr hw hnf

/-- Full functional specification of one pop call from an invariant state:
it never panics, preserves the invariant and the capacity, returns false
exactly when the buffer is empty (and then changes neither the state nor
the out-parameter), and on success removes and returns the head of the
abstract queue. -/
theorem pop_spec (b : RingBuffer) (x : Int) (hinv : b.Inv) :
    ∃ b' out r, b.pop x = some (b', out, r) ∧ b'.Inv ∧
      b'.data_.length = b.data_.length ∧
      (r = false ↔ b.read_idx_ = b.write_idx_) ∧
      (r = false → b' = b ∧ out = x) ∧
      (r = true → b.contents = out :: b'.contents) := by
  obtain ⟨hr, hw, hrc, hwc, hrcle, hwcle⟩ := hinv
  have hC : 0 < b.data_.length := by omega
  have hnext := next_eq_wrapAdd b.data_.length b.read_idx_ hr
  have hn_lt : wrapAdd b.data_.length b.read_idx_ 1 < b.data_.length :=
    wrapAdd_lt _ _ _ hr (by omega)
  simp only [RingBuffer.pop]
  by_cases h1 : b.read_idx_ = b.write_idx_cached_
  · rw [if_pos h1]
    by_cases h2 : b.read_idx_ = b.write_idx_
    · rw [if_pos h2]
      refine ⟨_, x, false, rfl, ?_, by simp, by simp [h2], ?_, by simp⟩
      · exact ⟨hr, hw, hrc, by simpa using hw, by simpa using hrcle,
          by simpa using Nat.le_refl _⟩
      · intro _
        refine ⟨?_, rfl⟩
        have hbeq : b.write_idx_cached_ = b.write_idx_ := by rw [← h1, ← h2]
        cases b
        simp_all
    · rw [if_neg h2, dif_pos hr]
      rw [hnext]
      have hds : dist b.data_.length (wrapAdd b.data_.length b.read_idx_ 1) b.write_idx_ =
          dist b.data_.length b.read_idx_ b.write_idx_ - 1 :=
        dist_succ_left _ _ _ hr hw h2
      refine ⟨_, _, true, rfl, ?_, by simp, by simp [h2], by simp, ?_⟩
      · refine ⟨hn_lt, hw, hrc, hw, ?_, ?_⟩
        · show dist b.data_.length (wrapAdd b.data_.length b.read_idx_ 1) b.write_idx_ ≤
            dist b.data_.length b.read_idx_cached_ b.write_idx_
          rw [hds]
          omega
        · show dist b.data_.length (wrapAdd b.data_.length b.read_idx_ 1) b.write_idx_ ≤
            dist b.data_.length (wrapAdd b.data_.length b.read_idx_ 1) b.write_idx_
          exact Nat.le_refl _
      · intro _
        have hcr := contents_read b
          { b with write_idx_cached_ := b.write_idx_
                   read_idx_ := wrapAdd b.data_.length b.read_idx_ 1 }
          rfl rfl rfl hr hw h2
        rw [getD_eq_get b.data_ b.read_idx_ 0 hr] at hcr
        exact hcr
  · rw [if_neg h1, dif_pos hr]
    rw [hnext]
    have hdwc : 0 < dist b.data_.length b.read_idx_ b.write_idx_cached_ := by
      rcases Nat.eq_zero_or_pos (dist b.data_.length b.read_idx_ b.write_idx_cached_)
        with h0 | h0
      · exact absurd ((dist_eq_zero_iff _ _ _ hr hwc).mp h0) h1
      · exact h0
    have h2 : b.read_idx_ ≠ b.write_idx_ := by
      intro hcontra
      have := (dist_eq_zero_iff b.data_.length b.read_idx_ b.write_idx_ hr hw).mpr hcontra
      omega
    have hds : dist b.data_.length (wrapAdd b.data_.length b.read_idx_ 1) b.write_idx_ =
        dist b.data_.length b.read_idx_ b.write_idx_ - 1 :=
      dist_succ_left _ _ _ hr hw h2
    have hdsc : dist b.data_.length (wrapAdd b.data_.length b.read_idx_ 1) b.write_idx_cached_ =
        dist b.data_.length b.read_idx_ b.write_idx_cached_ - 1 :=
      dist_succ_left _ _ _ hr hwc h1
    refine ⟨_, _, true, rfl, ?_, by simp, by simp [h2], by simp, ?_⟩
    · refine ⟨hn_lt, hw, hrc, hwc, ?_, ?_⟩
      · show dist b.data_.length (wrapAdd b.data_.length b.read_idx_ 1) b.write_idx_ ≤
          dist b.data_.length b.read_idx_cached_ b.write_idx_
        rw [hds]
        omega
      · show dist b.data_.length (wrapAdd b.data_.length b.read_idx_ 1) b.write_idx_cached_ ≤
          dist b.data_.length (wrapAdd b.data_.length b.read_idx_ 1) b.write_idx_
        rw [hds, hdsc]
        omega
    · intro _
      have hcr := contents_read b
        { b with read_idx_ := wrapAdd b.data_.length b.read_idx_ 1 }
        rfl rfl rfl hr hw h2
      rw [getD_eq_get b.data_ b.read_idx_ 0 hr] at hcr
      exact hcr

/-! Basic facts about freshly constructed buffers and reachable states. -/

theorem new_length (C : Nat) : (RingBuffer.new C).data_.length = C := by
  simp [RingBuffer.new]

theorem new_Inv (C : Nat) (hC : 1 ≤ C) : (RingBuffer.new C).Inv := by
  refine ⟨?_, ?_, ?_, ?_, ?_, ?_⟩ <;> simp [RingBuffer.new, dist] <;> omega

/-- Every reachable state of a capacity-C buffer (C at least 1) satisfies
the invariant and keeps its capacity. -/
theorem reachable_spec (C : Nat) (hC : 1 ≤ C) (b : RingBuffer)
    (h : Reachable C b) : b.Inv ∧ b.data_.length = C := by
  induction h with
  | init => exact ⟨new_Inv C hC, new_length C⟩
  | push b0 b1 v r _ heq ih =>
    obtain ⟨hinv, hlen⟩ := ih
    obtain ⟨b2, r2, heq2, hinv2, hlen2, _⟩ := push_spec b0 v hinv
    rw [heq] at heq2
    simp only [Option.some.injEq, Prod.mk.injEq] at heq2
    obtain ⟨hb, -⟩ := heq2
    rw [hb]
    exact ⟨hinv2, hlen2.trans hlen⟩
  | pop b0 b1 x out r _ heq ih =>
    obtain ⟨hinv, hlen⟩ := ih
    obtain ⟨b2, out2, r2, heq2, hinv2, hlen2, _⟩ := pop_spec b0 x hinv
    rw [heq] at heq2
    simp only [Option.some.injEq, Prod.mk.injEq] at heq2
    obtain ⟨hb, -⟩ := heq2
    rw [hb]
    exact ⟨hinv2, hlen2.trans hlen⟩

/-! Frame facts that hold in every state, reachable or not. -/

/-- A push that returns false mutates nothing at all. -/
theorem push_false_frame (b : RingBuffer) (v : Int) (b' : RingBuffer)
    (h : b.push v = some (b', false)) : b' = b := by
  obtain ⟨d, ri, rc, wi, wc⟩ := b
  simp only [RingBuffer.push] at h
  split_ifs at h <;> simp_all

/-- A pop that returns false mutates nothing and leaves the out-parameter
value unchanged. -/
theorem pop_false_frame (b : RingBuffer) (x : Int) (b' : RingBuffer) (out : Int)
    (h : b.pop x = some (b', out, false)) : b' = b ∧ out = x := by
  obtain ⟨d, ri, rc, wi, wc⟩ := b
  simp only [RingBuffer.pop] at h
  split_ifs at h <;> simp_all

/-- Immediately after construction, with any capacity, a pop returns false
and changes neither the buffer nor the out-parameter. -/
theorem pop_new (C : Nat) (x : Int) :
    (RingBuffer.new C).pop x = some (RingBuffer.new C, x, false) := rfl

/-- A capacity-1 buffer rejects every push without mutating anything. -/
theorem push_new_one (v : Int) :
    (RingBuffer.new 1).push v = some (RingBuffer.new 1, false) := rfl

/-- A capacity-0 buffer panics (out-of-bounds write) on every push. -/
theorem push_new_zero (v : Int) : (RingBuffer.new 0).push v = none := rfl

/-! Whole-run lemmas. -/

/-- Running any call sequence from an invariant state never panics,
preserves the invariant, and satisfies the FIFO accounting equation: the
queue before the run followed by the successfully pushed values equals the
successfully popped values followed by the queue after the run. -/
theorem run_spec (ops : List Op) : ∀ b : RingBuffer, b.Inv →
    ∃ b' rs, run b ops = some (b', rs) ∧ b'.Inv ∧
      b'.data_.length = b.data_.length ∧
      b.contents ++ pushedOK ops rs = poppedOK rs ++ b'.contents := by
  induction ops with
  | nil =>
    intro b hinv
    exact ⟨b, [], rfl, hinv, rfl, by simp [pushedOK, poppedOK]⟩
  | cons op rest ih =>
    intro b hinv
    cases op with
    | push v =>
      obtain ⟨b1, r, heq, hinv1, hlen1, hiff, hfalse, htrue⟩ := push_spec b v hinv
      obtain ⟨b2, rs, heq2, hinv2, hlen2, hacc⟩ := ih b1 hinv1
      refine ⟨b2, Res.pushed r :: rs, by simp [run, heq, heq2], hinv2, by omega, ?_⟩
      cases r with
      | false =>
        rw [hfalse rfl] at hacc
        simpa [pushedOK, poppedOK] using hacc
      | true =>
        have hc := htrue rfl
        simp only [pushedOK, poppedOK]
        calc b.contents ++ v :: pushedOK rest rs
            = (b.contents ++ [v]) ++ pushedOK rest rs := by simp
          _ = b1.contents ++ pushedOK rest rs := by rw [hc]
          _ = poppedOK rs ++ b2.contents := hacc
    | pop =>
      obtain ⟨b1, out, r, heq, hinv1, hlen1, hiff, hfalse, htrue⟩ := pop_spec b 0 hinv
      obtain ⟨b2, rs, heq2, hinv2, hlen2, hacc⟩ := ih b1 hinv1
      refine ⟨b2, Res.popped r out :: rs, by simp [run, heq, heq2], hinv2, by omega, ?_⟩
      cases r with
      | false =>
        rw [(hfalse rfl).1] at hacc
        simpa [pushedOK, poppedOK] using hacc
      | true =>
        have hc := htrue rfl
        simp only [pushedOK, poppedOK]
        rw [hc]
        simpa using hacc

/-- The observable results of a run depend only on the capacity and the
abstract queue of the starting state, not on the cursors or caches. -/
theorem run_congr (ops : List Op) : ∀ a b : RingBuffer, a.Inv → b.Inv →
    a.data_.length = b.data_.length → a.contents = b.contents →
    ∃ a' b' rs, run a ops = some (a', rs) ∧ run b ops = some (b', rs) ∧
      a'.Inv ∧ b'.Inv ∧ a'.data_.length = a.data_.length ∧
      b'.data_.length = b.data_.length ∧ a'.contents = b'.contents := by
  induction ops with
  | nil =>
    intro a b hia hib hlen hc
    exact ⟨a, b, [], rfl, rfl, hia, hib, rfl, rfl, hc⟩
  | cons op rest ih =>
    intro a b hia hib hlen hc
    cases op with
    | push v =>
      obtain ⟨a1, ra, heqa, hia1, hlena, hiffa, hfalsea, htruea⟩ := push_spec a v hia
      obtain ⟨b1, rb, heqb, hib1, hlenb, hiffb, hfalseb, htrueb⟩ := push_spec b v hib
      have hda : a.contents.length =
          dist a.data_.length a.read_idx_ a.write_idx_ := contents_length a
      have hdb : b.contents.length =
          dist b.data_.length b.read_idx_ b.write_idx_ := contents_length b
      have hff : (ra = false) ↔ (rb = false) := by
        rw [hiffa, hiffb, ← hda, ← hdb, hc, hlen]
      have hrr : ra = rb := by
        cases ra with
        | false => exact (hff.mp rfl).symm
        | true =>
          cases rb with
          | true => rfl
          | false => exact absurd (hff.mpr rfl) (by simp)
      subst hrr
      have hstep : a1.contents = b1.contents ∧ a1.data_.length = b1.data_.length := by
        cases ra with
        | false =>
          rw [hfalsea rfl, hfalseb rfl]
          exact ⟨hc, hlen⟩
        | true =>
          rw [htruea rfl, htrueb rfl, hc]
          exact ⟨rfl, by omega⟩
      obtain ⟨a2, b2, rs, heqa2, heqb2, hia2, hib2, hlena2, hlenb2, hc2⟩ :=
        ih a1 b1 hia1 hib1 hstep.2 hstep.1
      exact ⟨a2, b2, Res.pushed ra :: rs, by simp [run, heqa, heqa2],
        by simp [run, heqb, heqb2], hia2, hib2, by omega, by omega, hc2⟩
    | pop =>
      obtain ⟨a1, outa, ra, heqa, hia1, hlena, hiffa, hfalsea, htruea⟩ := pop_spec a 0 hia
      obtain ⟨b1, outb, rb, heqb, hib1, hlenb, hiffb, hfalseb, htrueb⟩ := pop_spec b 0 hib
      have hea : a.read_idx_ = a.write_idx_ ↔ a.contents = [] :=
        (contents_eq_nil_iff a hia.read_lt hia.write_lt).symm
      have heb : b.read_idx_ = b.write_idx_ ↔ b.contents = [] :=
        (contents_eq_nil_iff b hib.read_lt hib.write_lt).symm
      have hff : (ra = false) ↔ (rb = false) := by
        rw [hiffa, hiffb, hea, heb, hc]
      have hrr : ra = rb := by
        cases ra with
        | false => exact (hff.mp rfl).symm
        | true =>
          cases rb with
          | true => rfl
          | false => exact absurd (hff.mpr rfl) (by simp)
      subst hrr
      cases ra with
      | false =>
        obtain ⟨ha1, houta⟩ := hfalsea rfl
        obtain ⟨hb1, houtb⟩ := hfalseb rfl
        subst ha1 hb1
        obtain ⟨a2, b2, rs, heqa2, heqb2, hia2, hib2, hlena2, hlenb2, hc2⟩ :=
          ih a1 b1 hia1 hib1 hlen hc
        exact ⟨a2, b2, Res.popped false outa :: rs, by simp [run, heqa, heqa2],
          by simp [run, heqb, heqb2, houta, houtb], hia2, hib2, hlena2, hlenb2, hc2⟩
      | true =>
        have hca := htruea rfl
        have hcb := htrueb rfl
        rw [hc, hcb] at hca
        injection hca with hout htail
        obtain ⟨a2, b2, rs, heqa2, heqb2, hia2, hib2, hlena2, hlenb2, hc2⟩ :=
          ih a1 b1 hia1 hib1 (by omega) htail.symm
        exact ⟨a2, b2, Res.popped true outa :: rs, by simp [run, heqa, heqa2],
          by simp [run, heqb, heqb2, hout], hia2, hib2, by omega, by omega, hc2⟩

/-- Runs compose: running a concatenation is running the two halves in
sequence and concatenating the recorded results. -/
theorem run_append (l1 l2 : List Op) : ∀ b : RingBuffer,
    run b (l1 ++ l2) = (run b l1).bind fun p =>
      (run p.1 l2).map fun q => (q.1, p.2 ++ q.2) := by
  induction l1 with
  | nil =>
    intro b
    simp only [List.nil_append, run, Option.some_bind]
    cases h : run b l2 with
    | none => rfl
    | some p => simp
  | cons op l1 ih =>
    intro b
    cases op with
    | push v =>
      simp only [List.cons_append, run, List.append_eq, ih]
      cases hp : b.push v with
      | none => rfl
      | some p =>
        simp only [Option.some_bind]
        cases hq : run p.1 l1 with
        | none => rfl
        | some q =>
          simp only [Option.some_bind, Option.map_some']
          cases hr : run q.1 l2 with
          | none => rfl
          | some w => rfl
    | pop =>
      simp only [List.cons_append, run, List.append_eq, ih]
      cases hp : b.pop 0 with
      | none => rfl
      | some p =>
        simp only [Option.some_bind]
        cases hq : run p.1 l1 with
        | none => rfl
        | some q =>
          simp only [Option.some_bind, Option.map_some']
          cases hr : run q.1 l2 with
          | none => rfl
          | some w => rfl

/-- Pushing a list of values all of which fit in the free space succeeds
for every value and appends them to the abstract queue. -/
theorem run_fill : ∀ (vs : List Int) (b : RingBuffer), b.Inv →
    b.contents.length + vs.length + 1 ≤ b.data_.length →
    ∃ b', run b (vs.map Op.push) = some (b', vs.map (fun _ => Res.pushed true)) ∧
      b'.Inv ∧ b'.data_.length = b.data_.length ∧ b'.contents = b.contents ++ vs := by
  intro vs
  induction vs with
  | nil =>
    intro b hinv hcap
    exact ⟨b, by simp [run], hinv, rfl, by simp⟩
  | cons v vs ih =>
    intro b hinv hcap
    obtain ⟨b1, r, heq, hinv1, hlen1, hiff, hfalse, htrue⟩ := push_spec b v hinv
    have hr : r = true := by
      cases r with
      | true => rfl
      | false =>
        exfalso
        have hd := hiff.mp rfl
        have hcl := contents_length b
        simp only [List.length_cons] at hcap
        omega
    subst hr
    have hc1 : b1.contents = b.contents ++ [v] := htrue rfl
    obtain ⟨b2, h2, hinv2, hlen2, hc2⟩ := ih b1 hinv1 (by
      rw [hc1, hlen1]
      simp only [List.length_append, List.length_cons, List.length_nil] at hcap ⊢
      omega)
    refine ⟨b2, ?_, hinv2, by omega, ?_⟩
    · simp [run, heq, h2]
    · rw [hc2, hc1]
      simp

/-- Popping exactly as many times as there are queued values succeeds each
time, yields the queued values in order, and empties the buffer. -/
theorem run_drain : ∀ (vs : List Int) (b : RingBuffer), b.Inv →
    b.contents = vs →
    ∃ b', run b (List.replicate vs.length Op.pop) =
        some (b', vs.map (fun v => Res.popped true v)) ∧
      b'.Inv ∧ b'.data_.length = b.data_.length ∧ b'.contents = [] := by
  intro vs
  induction vs with
  | nil =>
    intro b hinv hc
    exact ⟨b, by simp [run], hinv, rfl, hc⟩
  | cons v vs ih =>
    intro b hinv hc
    obtain ⟨b1, out, r, heq, hinv1, hlen1, hiff, hfalse, htrue⟩ := pop_spec b 0 hinv
    have hr : r = true := by
      cases r with
      | true => rfl
      | false =>
        exfalso
        have hnil := (contents_eq_nil_iff b hinv.read_lt hinv.write_lt).mpr (hiff.mp rfl)
        rw [hc] at hnil
        cases hnil
    subst hr
    have hc1 := htrue rfl
    rw [hc] at hc1
    injection hc1 with hv htail
    obtain ⟨b2, h2, hinv2, hlen2, hc2⟩ := ih b1 hinv1 htail.symm
    refine ⟨b2, ?_, hinv2, by omega, hc2⟩
    simp [List.replicate_succ, run, heq, h2, hv]

/-- A full fill-and-drain cycle that fits the capacity: starting from an
empty invariant buffer, every push and every pop succeeds, the popped
values are the pushed ones in order, and the buffer ends empty again. -/
theorem run_cycle (b : RingBuffer) (vs : List Int) (hinv : b.Inv)
    (hempty : b.contents = []) (hvs : vs.length + 1 ≤ b.data_.length) :
    ∃ b', run b (cycleOps vs) = some (b', cycleRes vs) ∧
      b'.Inv ∧ b'.data_.length = b.data_.length ∧ b'.contents = [] := by
  obtain ⟨b1, h1, hinv1, hlen1, hc1⟩ := run_fill vs b hinv (by rw [hempty]; simpa)
  rw [hempty] at hc1
  simp only [List.nil_append] at hc1
  obtain ⟨b2, h2, hinv2, hlen2, hc2⟩ := run_drain vs b1 hinv1 hc1
  refine ⟨b2, ?_, hinv2, by omega, hc2⟩
  rw [cycleOps, run_append, h1, Option.some_bind, h2, Option.map_some']
  rfl

/-! Claim theorems. -/

/-- C1: for every buffer constructed with capacity C at least 2 and every
sequence of push and pop calls issued sequentially, no call panics and the
successfully pushed values are exactly the successfully popped values
followed by the values still queued, in order: pops return the pushed
values in FIFO order with no loss, duplication, or reordering. -/
theorem fifo_order (C : Nat) (ops : List Op) (hC : 2 ≤ C) :
    ∃ b' rs, run (RingBuffer.new C) ops = some (b', rs) ∧
      pushedOK ops rs = poppedOK rs ++ b'.contents := by
  obtain ⟨b', rs, heq, hinv, hlen, hacc⟩ :=
    run_spec ops (RingBuffer.new C) (new_Inv C (by omega))
  rw [contents_new] at hacc
  exact ⟨b', rs, heq, by simpa using hacc⟩

/-- Witness for C1 at capacity 2 with one push and one pop. -/
theorem fifo_order_witness :
    ∃ b' rs, run (RingBuffer.new 2) [Op.push 5, Op.pop] = some (b', rs) ∧
      pushedOK [Op.push 5, Op.pop] rs = poppedOK rs ++ b'.contents :=
  fifo_order 2 [Op.push 5, Op.pop] (by decide)

/-- C2: for every reachable state of a buffer with capacity C at least 2,
at most C-1 values are resident; a push returns false exactly when
(write_idx_ + 1) mod C equals read_idx_; and after C-1 successful pushes
into a fresh buffer with no intervening pop, the next push returns
false. -/
theorem capacity_bound (C : Nat) (b : RingBuffer) (v : Int) (vs : List Int)
    (hC : 2 ≤ C) (hreach : Reachable C b) (hvs : vs.length = C - 1) :
    b.contents.length ≤ C - 1 ∧
    ((b.push v).map Prod.snd = some false ↔ (b.write_idx_ + 1) % C = b.read_idx_) ∧
    ∃ b1, run (RingBuffer.new C) (vs.map Op.push) =
        some (b1, vs.map (fun _ => Res.pushed true)) ∧
      (b1.push v).map Prod.snd = some false := by
  obtain ⟨hinv, hlen⟩ := reachable_spec C (by omega) b hreach
  have hdl : dist b.data_.length b.read_idx_ b.write_idx_ < b.data_.length :=
    dist_lt _ _ _ hinv.read_lt hinv.write_lt
  refine ⟨?_, ?_, ?_⟩
  · rw [contents_length]
    omega
  · obtain ⟨b', r, heq, _, _, hiff, _, _⟩ := push_spec b v hinv
    rw [heq]
    simp only [Option.map_some', Option.some.injEq]
    rw [hiff, ← wrapAdd_one_mod C b.write_idx_ (hlen ▸ hinv.write_lt)]
    rw [hlen] at hdl ⊢
    constructor
    · intro h
      exact (full_iff_next_eq C b.read_idx_ b.write_idx_ (hlen ▸ hinv.read_lt)
        (hlen ▸ hinv.write_lt)).mpr h
    · intro h
      exact (full_iff_next_eq C b.read_idx_ b.write_idx_ (hlen ▸ hinv.read_lt)
        (hlen ▸ hinv.write_lt)).mp h
  · obtain ⟨b1, hrun, hinv1, hlen1, hc1⟩ :=
      run_fill vs (RingBuffer.new C) (new_Inv C (by omega)) (by
        rw [contents_new, new_length]
        simp only [List.length_nil]
        omega)
    refine ⟨b1, hrun, ?_⟩
    obtain ⟨b2, r, heq, _, _, hiff, _, _⟩ := push_spec b1 v hinv1
    have hfull : dist b1.data_.length b1.read_idx_ b1.write_idx_ =
        b1.data_.length - 1 := by
      have hcl := contents_length b1
      rw [hc1, contents_new] at hcl
      simp only [List.nil_append] at hcl
      rw [hlen1, new_length] at hcl ⊢
      omega
    rw [heq, hiff.mpr hfull]
    rfl

/-- Witness for C2 at capacity 2, the fresh buffer, and one fill value. -/
theorem capacity_bound_witness :
    (RingBuffer.new 2).contents.length ≤ 2 - 1 ∧
    (((RingBuffer.new 2).push 9).map Prod.snd = some false ↔
      ((RingBuffer.new 2).write_idx_ + 1) % 2 = (RingBuffer.new 2).read_idx_) ∧
    ∃ b1, run (RingBuffer.new 2) ([(3 : Int)].map Op.push) =
        some (b1, [(3 : Int)].map (fun _ => Res.pushed true)) ∧
      (b1.push 9).map Prod.snd = some false :=
  capacity_bound 2 (RingBuffer.new 2) 9 [3] (by decide) Reachable.init (by decide)

/-- C3: in every reachable state of a buffer with capacity C at least 2, a
pop returns false exactly when read_idx_ equals write_idx_ (the buffer is
empty). -/
theorem pop_false_iff_empty (C : Nat) (b : RingBuffer) (x : Int)
    (hC : 2 ≤ C) (hreach : Reachable C b) :
    ((b.pop x).map (fun t => t.2.2) = some false) ↔ b.read_idx_ = b.write_idx_ := by
  obtain ⟨hinv, hlen⟩ := reachable_spec C (by omega) b hreach
  obtain ⟨b', out, r, heq, _, _, hiff, _, _⟩ := pop_spec b x hinv
  rw [heq]
  simp only [Option.map_some', Option.some.injEq]
  exact hiff

/-- Witness for C3 at the freshly constructed capacity-2 buffer. -/
theorem pop_false_iff_empty_witness :
    (((RingBuffer.new 2).pop 0).map (fun t => t.2.2) = some false) ↔
      (RingBuffer.new 2).read_idx_ = (RingBuffer.new 2).write_idx_ :=
  pop_false_iff_empty 2 (RingBuffer.new 2) 0 (by decide) Reachable.init

/-- C4: whenever push returns false, nothing is mutated: the storage, both
cursors, and both cached cursors are the same after the call as before. -/
theorem push_false_no_mutation (b : RingBuffer) (v : Int) (b' : RingBuffer)
    (h : b.push v = some (b', false)) :
    b'.data_ = b.data_ ∧ b'.read_idx_ = b.read_idx_ ∧
    b'.write_idx_ = b.write_idx_ ∧ b'.read_idx_cached_ = b.read_idx_cached_ ∧
    b'.write_idx_cached_ = b.write_idx_cached_ := by
  rw [push_false_frame b v b' h]
  exact ⟨rfl, rfl, rfl, rfl, rfl⟩

/-- Witness for C4: a full capacity-2 buffer rejects a push unchanged. -/
theorem push_false_no_mutation_witness :
    (RingBuffer.mk [7, 0] 0 0 1 0).data_ = (RingBuffer.mk [7, 0] 0 0 1 0).data_ ∧
    (RingBuffer.mk [7, 0] 0 0 1 0).read_idx_ = (RingBuffer.mk [7, 0] 0 0 1 0).read_idx_ ∧
    (RingBuffer.mk [7, 0] 0 0 1 0).write_idx_ = (RingBuffer.mk [7, 0] 0 0 1 0).write_idx_ ∧
    (RingBuffer.mk [7, 0] 0 0 1 0).read_idx_cached_ =
      (RingBuffer.mk [7, 0] 0 0 1 0).read_idx_cached_ ∧
    (RingBuffer.mk [7, 0] 0 0 1 0).write_idx_cached_ =
      (RingBuffer.mk [7, 0] 0 0 1 0).write_idx_cached_ :=
  push_false_no_mutation (RingBuffer.mk [7, 0] 0 0 1 0) 9
    (RingBuffer.mk [7, 0] 0 0 1 0) (by decide)

/-- C5: whenever pop returns false the out-parameter is left unchanged;
in particular, immediately after construction with any capacity at least
1, pop returns false and leaves out unchanged. -/
theorem pop_false_out_unchanged (b : RingBuffer) (x out : Int) (b' : RingBuffer)
    (C : Nat) (_hC : 1 ≤ C) (h : b.pop x = some (b', out, false)) :
    out = x ∧ (RingBuffer.new C).pop x = some (RingBuffer.new C, x, false) :=
  ⟨(pop_false_frame b x b' out h).2, pop_new C x⟩

/-- Witness for C5 at the freshly constructed capacity-1 buffer. -/
theorem pop_false_out_unchanged_witness :
    (7 : Int) = 7 ∧ (RingBuffer.new 1).pop 7 = some (RingBuffer.new 1, 7, false) :=
  pop_false_out_unchanged (RingBuffer.new 1) 7 7 (RingBuffer.new 1) 1
    (by decide) (by decide)

/-- C6: scenario at capacity 4 (usable 3): pushes of 1, 2, 3 succeed, a
push of 4 fails, a pop yields 1, a push of 4 then succeeds, three pops
yield 2, 3, 4 in order, and a final pop fails. -/
theorem scenario_capacity_four :
    (run (RingBuffer.new 4) [Op.push 1, Op.push 2, Op.push 3, Op.push 4, Op.pop,
      Op.push 4, Op.pop, Op.pop, Op.pop, Op.pop]).map (fun p => p.2) =
    some [Res.pushed true, Res.pushed true, Res.pushed true, Res.pushed false,
      Res.popped true 1, Res.pushed true, Res.popped true 2, Res.popped true 3,
      Res.popped true 4, Res.popped false 0] := by
  rfl

/-- C7: for capacity C at least 2, three consecutive fill-to-C-1 and
drain-fully cycles from a fresh buffer all succeed with the expected
results, and the buffer afterwards behaves like a freshly constructed one
on every subsequent call sequence (same results, same abstract queue). -/
theorem wraparound_fresh_behavior (C : Nat) (vs1 vs2 vs3 : List Int)
    (tail : List Op) (hC : 2 ≤ C) (h1 : vs1.length = C - 1)
    (h2 : vs2.length = C - 1) (h3 : vs3.length = C - 1) :
    ∃ bfinal bfresh rs,
      run (RingBuffer.new C)
          (cycleOps vs1 ++ (cycleOps vs2 ++ (cycleOps vs3 ++ tail))) =
        some (bfinal, cycleRes vs1 ++ (cycleRes vs2 ++ (cycleRes vs3 ++ rs))) ∧
      run (RingBuffer.new C) tail = some (bfresh, rs) ∧
      bfinal.contents = bfresh.contents := by
  have hinv0 := new_Inv C (by omega)
  have hfit : ∀ vs : List Int, vs.length = C - 1 →
      vs.length + 1 ≤ (RingBuffer.new C).data_.length := by
    intro vs hvs
    rw [new_length]
    omega
  obtain ⟨b1, hrun1, hinv1, hlen1, hc1⟩ :=
    run_cycle (RingBuffer.new C) vs1 hinv0 (contents_new C) (hfit vs1 h1)
  obtain ⟨b2, hrun2, hinv2, hlen2, hc2⟩ :=
    run_cycle b1 vs2 hinv1 hc1 (by rw [hlen1]; exact hfit vs2 h2)
  obtain ⟨b3, hrun3, hinv3, hlen3, hc3⟩ :=
    run_cycle b2 vs3 hinv2 hc2 (by rw [hlen2, hlen1]; exact hfit vs3 h3)
  obtain ⟨bfinal, bfresh, rs, htail3, htailf, _, _, _, _, hceq⟩ :=
    run_congr tail b3 (RingBuffer.new C) hinv3 hinv0
      (by rw [hlen3, hlen2, hlen1]) (by rw [hc3, contents_new])
  refine ⟨bfinal, bfresh, rs, ?_, htailf, hceq⟩
  rw [run_append, hrun1, Option.some_bind, run_append, hrun2, Option.some_bind,
    run_append, hrun3, Option.some_bind, htail3, Option.map_some',
    Option.map_some', Option.map_some']

/-- Witness for C7 at capacity 2 with three one-element cycles and one
trailing pop. -/
theorem wraparound_fresh_behavior_witness :
    ∃ bfinal bfresh rs,
      run (RingBuffer.new 2)
          (cycleOps [1] ++ (cycleOps [2] ++ (cycleOps [3] ++ [Op.pop]))) =
        some (bfinal, cycleRes [1] ++ (cycleRes [2] ++ (cycleRes [3] ++ rs))) ∧
      run (RingBuffer.new 2) [Op.pop] = some (bfresh, rs) ∧
      bfinal.contents = bfresh.contents :=
  wraparound_fresh_behavior 2 [1] [2] [3] [Op.pop] (by decide) (by decide)
    (by decide) (by decide)

/-- C8 counterexample: with capacity 0 a push does not return false and
does not return at all: it hits an out-of-bounds write on the empty
storage (a panic), refuting the claim that push never panics and returns
false for capacity 0. -/
theorem capacity_zero_push_panics : (RingBuffer.new 0).push 5 = none := rfl

/-- C8 amended: a capacity-1 buffer degenerates to always-full and
always-empty: every push and every pop returns false without panicking
and without mutating anything; with capacity 0 every pop likewise returns
false and mutates nothing, but every push performs an out-of-bounds
storage access (a panic) instead of returning false. -/
theorem capacity_degenerate (v x : Int) :
    (RingBuffer.new 1).push v = some (RingBuffer.new 1, false) ∧
    (RingBuffer.new 1).pop x = some (RingBuffer.new 1, x, false) ∧
    (RingBuffer.new 0).pop x = some (RingBuffer.new 0, x, false) ∧
    (RingBuffer.new 0).push v = none :=
  ⟨push_new_one v, pop_new 1 x, pop_new 0 x, push_new_zero v⟩

/-- C9: with capacity C at least 1 both cursors are in [0, C) initially,
and from any state whose cursors are in range a push and a pop keep both
cursors in range, with every storage access in bounds (no panic). -/
theorem index_bounds_invariant (C : Nat) (b : RingBuffer) (v x : Int)
    (hC : 1 ≤ C) (hlen : b.data_.length = C)
    (hr : b.read_idx_ < C) (hw : b.write_idx_ < C) :
    ((RingBuffer.new C).read_idx_ < C ∧ (RingBuffer.new C).write_idx_ < C) ∧
    (∃ b' r, b.push v = some (b', r) ∧ b'.data_.length = C ∧
      b'.read_idx_ < C ∧ b'.write_idx_ < C) ∧
    (∃ b' out r, b.pop x = some (b', out, r) ∧ b'.data_.length = C ∧
      b'.read_idx_ < C ∧ b'.write_idx_ < C) := by
  have hwlen : b.write_idx_ < b.data_.length := by omega
  have hrlen : b.read_idx_ < b.data_.length := by omega
  have hnw : wrapAdd C b.write_idx_ 1 < C := wrapAdd_lt C _ 1 hw (by omega)
  have hnr : wrapAdd C b.read_idx_ 1 < C := wrapAdd_lt C _ 1 hr (by omega)
  refine ⟨⟨by simp [RingBuffer.new]; omega, by simp [RingBuffer.new]; omega⟩, ?_, ?_⟩
  · simp only [RingBuffer.push]
    rw [hlen, next_eq_wrapAdd C b.write_idx_ hw]
    by_cases hc1 : wrapAdd C b.write_idx_ 1 = b.read_idx_cached_
    · rw [if_pos hc1]
      by_cases hc2 : wrapAdd C b.write_idx_ 1 = b.read_idx_
      · rw [if_pos hc2]
        exact ⟨_, false, rfl, hlen, hr, hw⟩
      · rw [if_neg hc2, dif_pos hw]
        exact ⟨_, true, rfl, by simpa using hlen, hr, hnw⟩
    · rw [if_neg hc1, dif_pos hw]
      exact ⟨_, true, rfl, by simpa using hlen, hr, hnw⟩
  · simp only [RingBuffer.pop]
    have hnext : (if b.read_idx_ + 1 = b.data_.length then 0 else b.read_idx_ + 1) < C := by
      rw [next_eq_wrapAdd b.data_.length b.read_idx_ hrlen, hlen]
      exact hnr
    by_cases hc1 : b.read_idx_ = b.write_idx_cached_
    · rw [if_pos hc1]
      by_cases hc2 : b.read_idx_ = b.write_idx_
      · rw [if_pos hc2]
        exact ⟨_, x, false, rfl, hlen, hr, hw⟩
      · rw [if_neg hc2, dif_pos hrlen]
        exact ⟨_, _, true, rfl, hlen, hnext, hw⟩
    · rw [if_neg hc1, dif_pos hrlen]
      exact ⟨_, _, true, rfl, hlen, hnext, hw⟩

/-- Witness for C9 at the freshly constructed capacity-2 buffer. -/
theorem index_bounds_invariant_witness :
    (((RingBuffer.new 2).read_idx_ < 2 ∧ (RingBuffer.new 2).write_idx_ < 2) ∧
    (∃ b' r, (RingBuffer.new 2).push 5 = some (b', r) ∧ b'.data_.length = 2 ∧
      b'.read_idx_ < 2 ∧ b'.write_idx_ < 2) ∧
    (∃ b' out r, (RingBuffer.new 2).pop 0 = some (b', out, r) ∧ b'.data_.length = 2 ∧
      b'.read_idx_ < 2 ∧ b'.write_idx_ < 2)) :=
  index_bounds_invariant 2 (RingBuffer.new 2) 5 0 (by decide) (by decide)
    (by decide) (by decide)

end RingBufferSpec
